import Mathlib

/-!
Verification of the lexicalTest annotation engine against its specification.

The development shallowly embeds the TypeScript sources:
* the trie-based dictionary matcher (src/src/shared/utils/Trie.ts),
* the forward/reverse text-node transforms of the ForeignWordPlugin,
* the lifecycle tracker diffing word-id snapshots
  (ForeignAndRefineWordPlugin.tsx), and
* the data-unique block identifier assigner (same file).

Strings are modelled as lists of characters, JavaScript Map objects as
association lists with insertion-order update semantics, and JavaScript Set
objects as duplicate-free lists in insertion order.
-/

namespace LexicalTest

/-! ### Trie data model (src/src/shared/utils/Trie.ts)

A TrieNode holds a children map (character to node), an end-of-word flag and
the optional word/replacement payload stored on terminal nodes. -/

inductive TrieNode : Type where
  | mk (children : List (Char × TrieNode)) (isEndOfWord : Bool)
      (word : Option (List Char)) (replacement : Option (List Char)) : TrieNode

def TrieNode.children : TrieNode → List (Char × TrieNode)
  | .mk c _ _ _ => c

def TrieNode.isEndOfWord : TrieNode → Bool
  | .mk _ e _ _ => e

def TrieNode.word : TrieNode → Option (List Char)
  | .mk _ _ w _ => w

def TrieNode.replacement : TrieNode → Option (List Char)
  | .mk _ _ _ r => r

/-- Fresh node, as created by createNode: empty children, not terminal. -/
def createNode : TrieNode := .mk [] false none none

/-- Lookup in the children map (Map.get / Map.has). -/
def findChild : List (Char × TrieNode) → Char → Option TrieNode
  | [], _ => none
  | (c, n) :: rest, a => if c = a then some n else findChild rest a

/-- Update in the children map (Map.set): overwrite an existing binding in
place, append a new binding at the end, matching Map insertion order. -/
def setChild : List (Char × TrieNode) → Char → TrieNode → List (Char × TrieNode)
  | [], a, n => [(a, n)]
  | (c, m) :: rest, a, n =>
      if c = a then (a, n) :: rest else (c, m) :: setChild rest a n

/-- Descent of Trie.insert along the remaining characters of the word,
creating missing children; the final node is marked terminal and stores the
whole word and its replacement. -/
def insertAux : TrieNode → List Char → List Char → List Char → TrieNode
  | .mk ch _ _ _, [], word, repl => .mk ch true (some word) (some repl)
  | .mk ch e w r, c :: cs, word, repl =>
      let child := (findChild ch c).getD createNode
      .mk (setChild ch c (insertAux child cs word repl)) e w r

/-- Trie.insert(word, replacement). -/
def insert (t : TrieNode) (word repl : List Char) : TrieNode :=
  insertAux t word word repl

/-- Build a trie from a dictionary, inserting every entry in order, exactly as
the foreignWordTrie construction loop does. -/
def buildTrie (entries : List (List Char × List Char)) : TrieNode :=
  entries.foldl (fun t e => insert t e.1 e.2) createNode

/-- A match produced by findAllMatches: start offset, exclusive end offset,
matched word and its replacement. -/
structure Match : Type where
  start : Nat
  «end» : Nat
  word : List Char
  replacement : List Char
deriving DecidableEq, Repr

/-- The payload recorded when the scan reaches a terminal node, under the
JavaScript truthiness test current.isEndOfWord and current.word and
current.replacement: both strings must be present and nonempty. -/
def terminalData (n : TrieNode) : Option (List Char × List Char) :=
  match n.isEndOfWord, n.word, n.replacement with
  | true, some (c :: cs), some (d :: ds) => some (c :: cs, d :: ds)
  | _, _, _ => none

/-- The inner while loop of findAllMatches: walk the trie consuming characters
while a child edge exists; whenever the current node is a (truthy) terminal,
overwrite lastMatch with the current end offset and payload. -/
def walk : TrieNode → List Char → Nat → Option (Nat × List Char × List Char) →
    Option (Nat × List Char × List Char)
  | _, [], _, last => last
  | node, c :: cs, j, last =>
      match findChild node.children c with
      | none => last
      | some child =>
          walk child cs (j + 1)
            (match terminalData child with
             | some (w, r) => some (j + 1, w, r)
             | none => last)

/-- The outer for loop of findAllMatches: for every start offset, take the
longest match found by the walk, if any. -/
def findCandidatesAux (root : TrieNode) : List Char → Nat → List Match
  | [], _ => []
  | c :: cs, i =>
      (match walk root (c :: cs) i none with
       | some (e, w, r) => [⟨i, e, w, r⟩]
       | none => []) ++ findCandidatesAux root cs (i + 1)

def findCandidates (root : TrieNode) (text : List Char) : List Match :=
  findCandidatesAux root text 0

/-- The sort comparator used by removeOverlappingMatches, as a boolean
less-or-equal test: ascending start, ties broken by descending length. -/
def jsLe (a b : Match) : Bool :=
  if a.start ≠ b.start then a.start < b.start
  else ((b.«end» : Int) - b.start) - ((a.«end» : Int) - a.start) ≤ 0

/-- Stable insertion step for the sort. -/
def insertSorted (m : Match) : List Match → List Match
  | [] => [m]
  | x :: xs => if jsLe x m then x :: insertSorted m xs else m :: x :: xs

/-- Stable sort by the comparator, modelling Array.prototype.sort (which is
stable, and agrees with any stable sort on a consistent comparator). -/
def sortMatches : List Match → List Match
  | [] => []
  | x :: xs => insertSorted x (sortMatches xs)

/-- The sweep of removeOverlappingMatches: keep a lastEnd cursor, accept a
match iff its start is at least lastEnd, then move the cursor to its end. -/
def sweep : List Match → Int → List Match
  | [], _ => []
  | m :: ms, lastEnd =>
      if lastEnd ≤ (m.start : Int) then m :: sweep ms (m.«end» : Int)
      else sweep ms lastEnd

/-- Trie.removeOverlappingMatches: empty input short-circuits; otherwise sort
by the comparator and sweep with lastEnd initialized to -1. -/
def removeOverlappingMatches (ms : List Match) : List Match :=
  if ms = [] then [] else sweep (sortMatches ms) (-1)

/-- Trie.findAllMatches: longest candidate per start offset, then overlap
removal. -/
def findAllMatches (root : TrieNode) (text : List Char) : List Match :=
  removeOverlappingMatches (findCandidates root text)

/-- Trie.search: direct descent; a miss on any character edge fails, and the
final node must be terminal. -/
def search : TrieNode → List Char → Bool
  | node, [] => node.isEndOfWord
  | node, c :: cs =>
      match findChild node.children c with
      | none => false
      | some child => search child cs

/-! ### Document leaves and the span transforms (ForeignWordPlugin)

A leaf is either a plain TextNode or a ForeignWordNode carrying its text and
the replacement suggestion. -/

inductive Node : Type where
  | text (s : List Char)
  | foreign (txt replacement : List Char)
deriving DecidableEq, Repr

/-- The reverse transform registered for ForeignWordNode: if the node's live
text no longer passes Trie.search, replace the node by a plain TextNode with
the same text; otherwise leave it alone.  Plain text nodes are untouched (the
transform is only registered for ForeignWordNode). -/
def reverseTransformNode (t : TrieNode) : Node → Node
  | .text s => .text s
  | .foreign w r => if search t w then .foreign w r else .text w

/-- The reverse transform over a whole tree of sibling leaves. -/
def reverseTransformTree (t : TrieNode) (leaves : List Node) : List Node :=
  leaves.map (reverseTransformNode t)

/-- State of the forward-transform loop over the matches of one text node:
the finalized sibling leaves to the left, the text of the current TextNode
the loop cursor points at (none once the cursor node was itself replaced and
detached), and the processedLength counter. -/
structure FState : Type where
  out : List Node
  cur : Option (List Char)
  processedLength : Nat
deriving DecidableEq, Repr

/-- One iteration of the forward-transform loop for a single match, on a text
node with no siblings.  Mirrors the loop body: skip the match when its
relative start falls outside the current node's text; split off the text
before the match when the relative start is positive; split off the text
after the match when the match is shorter than the remaining text, else the
cursor node is consumed whole (with no text sibling to move to, the cursor
handle becomes detached, which for a lone initial node can only happen on the
final match); replace the matched part by a ForeignWordNode built from the
match's word and replacement; account the consumed lengths. -/
def stepMatch (m : Match) (st : FState) : FState :=
  match st.cur with
  | none => st
  | some curText =>
      let relativeStart : Int := (m.start : Int) - st.processedLength
      if relativeStart < 0 ∨ (curText.length : Int) ≤ relativeStart then st
      else
        let rs := m.start - st.processedLength
        let pre : List Node := if 0 < rs then [.text (curText.take rs)] else []
        let targetText := if 0 < rs then curText.drop rs else curText
        let matchLength := m.«end» - m.start
        if matchLength < targetText.length then
          { out := st.out ++ pre ++ [.foreign m.word m.replacement]
            cur := some (targetText.drop matchLength)
            processedLength := st.processedLength + rs + matchLength }
        else
          { out := st.out ++ pre ++ [.foreign m.word m.replacement]
            cur := none
            processedLength := st.processedLength + rs + matchLength }

/-- The forward transform (the TextNode transform of the plugin) applied to a
single plain TextNode with the given text and no siblings, returning the
sibling leaves that replace it.  Empty text and empty match lists return
without touching the tree. -/
def forwardTransform (t : TrieNode) (text : List Char) : List Node :=
  if text.length = 0 then [.text text]
  else
    let ms := findAllMatches t text
    if ms = [] then [.text text]
    else
      let st := ms.foldl (fun s m => stepMatch m s) ⟨[], some text, 0⟩
      st.out ++ (match st.cur with
                 | some s => [.text s]
                 | none => [])

/-! ### Lifecycle tracker (ForeignAndRefineWordPlugin.tsx)

Word-id sets are JavaScript Set objects: duplicate-free lists in insertion
order.  A tree snapshot is abstracted, per text leaf, as the id attribute
read off the leaf's structural parent (none when the parent is missing, not
an element, or has no such attribute). -/

def setAdd (s : List (List Char)) (x : List Char) : List (List Char) :=
  if x ∈ s then s else s ++ [x]

/-- collectWordIds: walk all text leaves, read the configured attribute off
each leaf's parent, and add truthy (present and nonempty) values to a set. -/
def collectWordIds (parents : List (Option (List Char))) : List (List Char) :=
  parents.foldl
    (fun ids o =>
      match o with
      | some (c :: cs) => setAdd ids (c :: cs)
      | _ => ids) []

/-- findDeletedWordIds: ids present in the previous snapshot but absent from
the current one. -/
def findDeletedWordIds (previousIds currentIds : List (List Char)) :
    List (List Char) :=
  previousIds.foldl (fun d i => if i ∈ currentIds then d else setAdd d i) []

/-- The deletion callbacks issued by handleEditorUpdate for one snapshot
pair, in invocation order: one call per id in the set difference. -/
def handleEditorUpdateCalls (prev cur : List (Option (List Char))) :
    List (List Char) :=
  findDeletedWordIds (collectWordIds prev) (collectWordIds cur)

/-! ### Block identifier assigner (DataUniqueAttributePlugin)

A top-level block either is not an element node, or is an element whose DOM
handle may be missing; a DOM handle stores the optional data-unique
attribute.  The nondeterministic generateUniqueId (timestamp plus random
suffix) is modelled as a supply of ids indexed by how many ids were generated
so far in the pass. -/

structure Block : Type where
  isElement : Bool
  dom : Option (Option (List Char))
deriving DecidableEq, Repr

/-- getUniqueAttributeValue: null for non-elements and missing DOM handles,
else the stored attribute. -/
def getUniqueAttributeValue (b : Block) : Option (List Char) :=
  if b.isElement then
    match b.dom with
    | some attr => attr
    | none => none
  else none

/-- setUniqueAttributeValue: fails (none) for non-elements and missing DOM
handles, else stores the attribute. -/
def setUniqueAttributeValue (b : Block) (v : List Char) : Option Block :=
  if b.isElement then
    match b.dom with
    | some _ => some { b with dom := some (some v) }
    | none => none
  else none

/-- JavaScript truthiness filter on an attribute value: present and
nonempty. -/
def truthyVal : Option (List Char) → Option (List Char)
  | some (c :: cs) => some (c :: cs)
  | _ => none

/-- collectExistingUniqueValues: every truthy data-unique value of the root's
children. -/
def collectExistingUniqueValues (blocks : List Block) : List (List Char) :=
  blocks.foldl
    (fun s b =>
      match truthyVal (getUniqueAttributeValue b) with
      | some v => setAdd s v
      | none => s) []

/-- assignUniqueAttributeIfNeeded on one block, with the seen-values set and
the generator counter threaded through: non-elements are skipped; a truthy
current value not yet in the set is kept and recorded; otherwise a fresh id
is generated and, when the attribute write succeeds, stored and recorded. -/
def assignUniqueAttributeIfNeeded (gen : Nat → List Char) (b : Block)
    (seen : List (List Char)) (ctr : Nat) :
    Block × List (List Char) × Nat :=
  if b.isElement then
    match truthyVal (getUniqueAttributeValue b) with
    | some v =>
        if v ∈ seen then
          let nv := gen ctr
          match setUniqueAttributeValue b nv with
          | some b' => (b', setAdd seen nv, ctr + 1)
          | none => (b, seen, ctr + 1)
        else (b, setAdd seen v, ctr)
    | none =>
        let nv := gen ctr
        match setUniqueAttributeValue b nv with
        | some b' => (b', setAdd seen nv, ctr + 1)
        | none => (b, seen, ctr + 1)
  else (b, seen, ctr)

/-- One fold step of the whole-tree pass, accumulating the rewritten blocks
in order. -/
def passStep (gen : Nat → List Char) (st : List Block × List (List Char) × Nat)
    (b : Block) : List Block × List (List Char) × Nat :=
  let r := assignUniqueAttributeIfNeeded gen b st.2.1 st.2.2
  (st.1 ++ [r.1], r.2.1, r.2.2)

/-- processAllRootChildren: pre-collect every existing data-unique value,
then assign over all top-level blocks in document order. -/
def processAllRootChildren (gen : Nat → List Char) (blocks : List Block) :
    List Block :=
  (blocks.foldl (passStep gen) ([], collectExistingUniqueValues blocks, 0)).1

/-- The data-unique values readable off a list of blocks, in document
order. -/
def blockVals (l : List Block) : List (List Char) :=
  l.filterMap getUniqueAttributeValue

/-! ### Concrete dictionaries and inputs used by the claims -/

def trieAB : TrieNode := buildTrie [("a".toList, "x".toList), ("ab".toList, "y".toList)]

def trieBB : TrieNode := buildTrie [("bb".toList, "1".toList), ("bc".toList, "2".toList)]

def trieCoffee : TrieNode := buildTrie [("coffee".toList, "brew".toList)]

/-- The terminal hits seen by the findAllMatches walk from a given node along
the text suffix starting at absolute offset j: one entry, in traversal
order, per truthy terminal node on the descent path.  This is the
specification device for longest-match-at-a-start statements: the walk
overwrites lastMatch at exactly these points. -/
def pathTerminals : TrieNode → List Char → Nat → List (Nat × List Char × List Char)
  | _, [], _ => []
  | node, c :: cs, j =>
      match findChild node.children c with
      | none => []
      | some child =>
          (match terminalData child with
           | some (w, r) => [(j + 1, w, r)]
           | none => []) ++ pathTerminals child cs (j + 1)

/-- A leaf is non-divergent when it is plain text, or an annotated span whose
live text still passes Trie.search. -/
def nonDivergent (t : TrieNode) : Node → Bool
  | .text _ => true
  | .foreign w _ => search t w

/-! ### Properties of the overlap-removal sweep -/

/-- The sweep always produces a chain of mutually non-overlapping matches,
and its first element starts no earlier than the incoming cursor. -/
theorem sweep_chain (ms : List Match) : ∀ lastEnd : Int,
    List.Chain' (fun a b : Match => a.«end» ≤ b.start) (sweep ms lastEnd) ∧
    ∀ x, (sweep ms lastEnd).head? = some x → lastEnd ≤ (x.start : Int) := by
  induction ms with
  | nil =>
      intro lastEnd
      exact ⟨List.chain'_nil, fun x hx => by simp [sweep] at hx⟩
  | cons m ms ih =>
      intro lastEnd
      by_cases h : lastEnd ≤ (m.start : Int)
      · have hs : sweep (m :: ms) lastEnd = m :: sweep ms (m.«end» : Int) := by
          simp [sweep, h]
        rw [hs]
        constructor
        · rw [List.chain'_cons']
          refine ⟨?_, (ih ((m.«end» : Nat) : Int)).1⟩
          intro y hy
          have hy' := (ih ((m.«end» : Nat) : Int)).2 y hy
          exact_mod_cast hy'
        · intro x hx
          rw [List.head?_cons, Option.some_inj] at hx
          exact hx ▸ h
      · have hs : sweep (m :: ms) lastEnd = sweep ms lastEnd := by
          simp [sweep, h]
        rw [hs]
        exact ih lastEnd

/-- C1: for every dictionary trie and every input text, the sequence returned
by Trie.findAllMatches is mutually non-overlapping: every adjacent pair of
matches in the returned order satisfies that the first match's end offset is
at most the second match's start offset. -/
theorem findAllMatches_nonoverlap (root : TrieNode) (text : List Char) :
    List.Chain' (fun a b : Match => a.«end» ≤ b.start) (findAllMatches root text) := by
  unfold findAllMatches removeOverlappingMatches
  split
  · exact List.chain'_nil
  · exact (sweep_chain _ _).1

/-- C3: with a trie holding exactly the terms bb and bc, findAllMatches on
the text abbc returns only the bb match at offsets one to three, while the
candidate list shows the bc candidate at offsets two to four that the sweep
suppressed because its start offset two is below the lastEnd cursor three. -/
theorem findAllMatches_abbc_earliest_start :
    findAllMatches trieBB "abbc".toList = [⟨1, 3, "bb".toList, "1".toList⟩] ∧
    findCandidates trieBB "abbc".toList =
      [⟨1, 3, "bb".toList, "1".toList⟩, ⟨2, 4, "bc".toList, "2".toList⟩] := by
  exact ⟨by decide, by decide⟩

/-- C4: with a dictionary containing only the term coffee with replacement
brew, the forward transform of a single plain text node reading I like
coffee a lot yields exactly three sibling leaves in order: plain text, the
annotated ForeignWordNode with text coffee and replacement brew, and plain
text again. -/
theorem forwardTransform_coffee_scenario :
    forwardTransform trieCoffee "I like coffee a lot".toList =
      [.text "I like ".toList,
       .foreign "coffee".toList "brew".toList,
       .text " a lot".toList] := by
  decide

/-- C5: the forward transform is the identity on non-matching text: when
findAllMatches returns the empty list, the text node is returned untouched,
with no split, no replacement and no new nodes. -/
theorem forwardTransform_identity_on_nonmatching (t : TrieNode) (text : List Char)
    (h : findAllMatches t text = []) : forwardTransform t text = [.text text] := by
  unfold forwardTransform
  by_cases he : text.length = 0
  · simp [he]
  · simp [he, h]

/-- Witness for C5 at a concrete input: the coffee dictionary finds nothing
in the text tea, and the transform returns the node unchanged. -/
theorem forwardTransform_identity_on_nonmatching_witness :
    findAllMatches trieCoffee "tea".toList = [] ∧
    forwardTransform trieCoffee "tea".toList = [.text "tea".toList] :=
  ⟨by decide,
   forwardTransform_identity_on_nonmatching trieCoffee "tea".toList (by decide)⟩

/-- Applying the reverse transform to any single leaf twice gives the same
leaf as applying it once. -/
theorem reverseTransformNode_idem (t : TrieNode) (n : Node) :
    reverseTransformNode t (reverseTransformNode t n) = reverseTransformNode t n := by
  cases n with
  | text s => rfl
  | foreign w r =>
      by_cases h : search t w
      · simp [reverseTransformNode, h]
      · simp [reverseTransformNode, h]

/-- C6: the reverse transform self-heals divergent spans and is stable: an
annotated span whose text fails Trie.search is replaced by a plain TextNode
with the same text; a span whose text still passes the search is left
unchanged; on a tree with no divergent spans the transform is the identity;
and applying it twice equals applying it once, so a divergent span is
converted exactly once. -/
theorem reverseTransform_selfheal (t : TrieNode) (w r : List Char) (leaves : List Node) :
    (search t w = false → reverseTransformNode t (.foreign w r) = .text w) ∧
    (search t w = true → reverseTransformNode t (.foreign w r) = .foreign w r) ∧
    ((∀ n ∈ leaves, nonDivergent t n = true) → reverseTransformTree t leaves = leaves) ∧
    reverseTransformTree t (reverseTransformTree t leaves) = reverseTransformTree t leaves := by
  refine ⟨fun h => by simp [reverseTransformNode, h], fun h => by simp [reverseTransformNode, h],
    fun h => ?_, ?_⟩
  · unfold reverseTransformTree
    induction leaves with
    | nil => rfl
    | cons n ns ih =>
        have hn : reverseTransformNode t n = n := by
          cases n with
          | text s => rfl
          | foreign w' r' =>
              have hs := h (.foreign w' r') (by simp)
              simp only [nonDivergent] at hs
              simp [reverseTransformNode, hs]
        simp only [List.map_cons, hn]
        rw [ih (fun x hx => h x (by simp [hx]))]
  · unfold reverseTransformTree
    induction leaves with
    | nil => rfl
    | cons n ns ih =>
        simp only [List.map_cons, reverseTransformNode_idem]
        rw [ih]

/-- Witness for C6 at concrete inputs: a divergent span with text tea is
converted to plain text, the intact coffee span is kept, and a tree with no
divergent spans maps to itself. -/
theorem reverseTransform_selfheal_witness :
    reverseTransformNode trieCoffee (.foreign "tea".toList "brew".toList) =
      .text "tea".toList ∧
    reverseTransformNode trieCoffee (.foreign "coffee".toList "brew".toList) =
      .foreign "coffee".toList "brew".toList ∧
    reverseTransformTree trieCoffee
        [.text "I ".toList, .foreign "coffee".toList "brew".toList] =
      [.text "I ".toList, .foreign "coffee".toList "brew".toList] :=
  ⟨(reverseTransform_selfheal trieCoffee "tea".toList "brew".toList []).1 (by decide),
   (reverseTransform_selfheal trieCoffee "coffee".toList "brew".toList []).2.1 (by decide),
   (reverseTransform_selfheal trieCoffee "x".toList "y".toList
       [.text "I ".toList, .foreign "coffee".toList "brew".toList]).2.2.1 (by decide)⟩

/-! ### The walk finds the longest terminal hit at each start offset -/

/-- The walk is the left fold of the overwrite-lastMatch step over the
terminal hits on its descent path. -/
theorem walk_eq_foldl (rest : List Char) : ∀ (node : TrieNode) (j : Nat) last,
    walk node rest j last =
      (pathTerminals node rest j).foldl (fun _ t => some t) last := by
  induction rest with
  | nil => intro node j last; rfl
  | cons c cs ih =>
      intro node j last
      cases hfc : findChild node.children c with
      | none => simp [walk, pathTerminals, hfc]
      | some child =>
          cases htd : terminalData child with
          | none => simp [walk, pathTerminals, hfc, htd, ih]
          | some wr => simp [walk, pathTerminals, hfc, htd, ih]

/-- Folding the overwrite step over a list keeps the last element when there
is one, else the initial accumulator. -/
theorem foldl_overwrite_eq_getLast {α : Type} (l : List α) :
    ∀ init : Option α,
      l.foldl (fun _ t => some t) init =
        match l.getLast? with
        | some t => some t
        | none => init := by
  induction l with
  | nil => intro init; rfl
  | cons x xs ih =>
      intro init
      have hx : (x :: xs).foldl (fun _ t => some t) init =
          xs.foldl (fun _ t => some t) (some x) := rfl
      rw [hx, ih (some x)]
      cases xs with
      | nil => simp
      | cons y ys =>
          rw [List.getLast?_cons_cons]
          obtain hz := List.getLast?_eq_getLast_of_ne_nil
            (l := y :: ys) (by simp)
          rw [hz]

/-- Every terminal hit on the walk path ends strictly after the start
offset. -/
theorem pathTerminals_lt (rest : List Char) : ∀ (node : TrieNode) (j : Nat) t,
    t ∈ pathTerminals node rest j → j < t.1 := by
  induction rest with
  | nil => intro node j t ht; simp [pathTerminals] at ht
  | cons c cs ih =>
      intro node j t ht
      cases hfc : findChild node.children c with
      | none => rw [pathTerminals, hfc] at ht; simp at ht
      | some child =>
          rw [pathTerminals, hfc] at ht
          rcases List.mem_append.mp ht with h1 | h2
          · cases htd : terminalData child with
            | none => rw [htd] at h1; simp at h1
            | some wr =>
                rw [htd] at h1
                simp at h1
                subst h1
                exact Nat.lt_succ_self j
          · exact Nat.lt_of_succ_lt (ih child (j + 1) t h2)

/-- Every terminal hit on the walk path ends within the scanned suffix. -/
theorem pathTerminals_le (rest : List Char) : ∀ (node : TrieNode) (j : Nat) t,
    t ∈ pathTerminals node rest j → t.1 ≤ j + rest.length := by
  induction rest with
  | nil => intro node j t ht; simp [pathTerminals] at ht
  | cons c cs ih =>
      intro node j t ht
      cases hfc : findChild node.children c with
      | none => rw [pathTerminals, hfc] at ht; simp at ht
      | some child =>
          rw [pathTerminals, hfc] at ht
          rcases List.mem_append.mp ht with h1 | h2
          · cases htd : terminalData child with
            | none => rw [htd] at h1; simp at h1
            | some wr =>
                rw [htd] at h1
                simp at h1
                subst h1
                simp only [List.length_cons]
                omega
          · have := ih child (j + 1) t h2
            simp only [List.length_cons]
            omega

/-- The last terminal hit on the walk path is the longest one. -/
theorem pathTerminals_getLast_max (rest : List Char) :
    ∀ (node : TrieNode) (j : Nat) z,
      (pathTerminals node rest j).getLast? = some z →
      ∀ t ∈ pathTerminals node rest j, t.1 ≤ z.1 := by
  induction rest with
  | nil => intro node j z hz; simp [pathTerminals] at hz
  | cons c cs ih =>
      intro node j z hz t ht
      cases hfc : findChild node.children c with
      | none => rw [pathTerminals, hfc] at ht; simp at ht
      | some child =>
          simp only [pathTerminals, hfc] at hz ht
          cases htl : pathTerminals child cs (j + 1) with
          | nil =>
              rw [htl, List.append_nil] at hz ht
              cases htd : terminalData child with
              | none => rw [htd] at ht; simp at ht
              | some wr =>
                  rw [htd] at hz ht
                  simp at hz ht
                  rw [ht, hz]
          | cons u us =>
              have hne : pathTerminals child cs (j + 1) ≠ [] := by
                rw [htl]; simp
              rw [List.getLast?_append_of_ne_nil _ hne] at hz
              have hzmax := ih child (j + 1) z hz
              rcases List.mem_append.mp ht with h1 | h2
              · have hzmem : z ∈ pathTerminals child cs (j + 1) := by
                  rcases List.mem_getLast?_eq_getLast (x := z) hz with ⟨hh, hzz⟩
                  exact hzz ▸ List.getLast_mem hh
                have hzlt := pathTerminals_lt cs child (j + 1) z hzmem
                cases htd : terminalData child with
                | none => rw [htd] at h1; simp at h1
                | some wr =>
                    rw [htd] at h1
                    simp at h1
                    rw [h1]
                    exact Nat.le_of_lt hzlt
              · exact hzmax t h2

/-- Characterization of the candidates produced by the outer loop: every
candidate starts at or after the loop position, and is the result of the
walk from its own start offset. -/
theorem candidates_spec (root : TrieNode) (cs : List Char) : ∀ (i : Nat) m,
    m ∈ findCandidatesAux root cs i →
      i ≤ m.start ∧
      walk root (cs.drop (m.start - i)) m.start none =
        some (m.«end», m.word, m.replacement) := by
  induction cs with
  | nil => intro i m hm; simp [findCandidatesAux] at hm
  | cons c cs ih =>
      intro i m hm
      rw [findCandidatesAux] at hm
      rcases List.mem_append.mp hm with h1 | h2
      · cases hw : walk root (c :: cs) i none with
        | none => rw [hw] at h1; simp at h1
        | some ewr =>
            rw [hw] at h1
            simp at h1
            obtain ⟨e, w, r⟩ := ewr
            subst h1
            refine ⟨Nat.le_refl _, ?_⟩
            simpa using hw
      · obtain ⟨hle, hwalk⟩ := ih (i + 1) m h2
        refine ⟨Nat.le_of_succ_le hle, ?_⟩
        have hdrop : (c :: cs).drop (m.start - i) = cs.drop (m.start - (i + 1)) := by
          have : m.start - i = (m.start - (i + 1)) + 1 := by omega
          rw [this, List.drop_succ_cons]
        rw [hdrop]
        exact hwalk

/-- The candidates of one scan have strictly increasing start offsets, so at
most one candidate is recorded per start offset. -/
theorem candidates_pairwise (root : TrieNode) (cs : List Char) : ∀ i : Nat,
    (findCandidatesAux root cs i).Pairwise (fun a b => a.start < b.start) := by
  induction cs with
  | nil => intro i; simp [findCandidatesAux]
  | cons c cs ih =>
      intro i
      rw [findCandidatesAux, List.pairwise_append]
      refine ⟨?_, ih (i + 1), ?_⟩
      · cases hw : walk root (c :: cs) i none with
        | none => simp
        | some ewr => simp
      · intro a ha b hb
        have hb' := (candidates_spec root cs (i + 1) b hb).1
        cases hw : walk root (c :: cs) i none with
        | none => rw [hw] at ha; simp at ha
        | some ewr =>
            rw [hw] at ha
            simp at ha
            obtain ⟨e, w, r⟩ := ewr
            subst ha
            simpa using Nat.lt_of_succ_le hb'

/-- Every candidate's walk result is the last, hence longest, terminal hit
along the descent from its start offset. -/
theorem candidate_getLast (root : TrieNode) (text : List Char) (m : Match)
    (h : m ∈ findCandidates root text) :
    (pathTerminals root (text.drop m.start) m.start).getLast? =
      some (m.«end», m.word, m.replacement) := by
  obtain ⟨-, hwalk⟩ := candidates_spec root text 0 m h
  rw [Nat.sub_zero] at hwalk
  rw [walk_eq_foldl, foldl_overwrite_eq_getLast] at hwalk
  cases hL : (pathTerminals root (text.drop m.start) m.start).getLast? with
  | none => rw [hL] at hwalk; simp at hwalk
  | some z =>
      rw [hL] at hwalk
      simp at hwalk
      rw [hwalk]

/-- C2: with a trie holding exactly the terms a (replacement x) and ab
(replacement y), findAllMatches on the text ab returns exactly the single
match of ab spanning the whole text, never the shorter match of a; and in
general every recorded candidate dominates every terminal hit reachable from
its start offset (only the longest term matching there is recorded), with at
most one candidate per start offset since candidate starts strictly
increase. -/
theorem findAllMatches_longest_at_start :
    findAllMatches trieAB "ab".toList = [⟨0, 2, "ab".toList, "y".toList⟩] ∧
    (∀ (root : TrieNode) (text : List Char) (m : Match),
      m ∈ findCandidates root text →
      ∀ t ∈ pathTerminals root (text.drop m.start) m.start, t.1 ≤ m.«end») ∧
    (∀ (root : TrieNode) (text : List Char),
      (findCandidates root text).Pairwise (fun a b => a.start < b.start)) := by
  refine ⟨by decide, ?_, fun root text => candidates_pairwise root text 0⟩
  intro root text m hm t ht
  have hL := candidate_getLast root text m hm
  exact pathTerminals_getLast_max _ _ _ _ hL t ht

/-- Witness for C2 at the concrete dictionary: the match of ab is a recorded
candidate, the shorter terminal hit of a at end offset one lies on its walk
path, and the theorem bounds that hit by the recorded end offset two. -/
theorem findAllMatches_longest_at_start_witness :
    (⟨0, 2, "ab".toList, "y".toList⟩ : Match) ∈ findCandidates trieAB "ab".toList ∧
    (1, "a".toList, "x".toList) ∈ pathTerminals trieAB ("ab".toList.drop 0) 0 ∧
    (1, "a".toList, "x".toList).1 ≤ (⟨0, 2, "ab".toList, "y".toList⟩ : Match).«end» :=
  ⟨by decide, by decide,
   findAllMatches_longest_at_start.2.1 trieAB "ab".toList
     ⟨0, 2, "ab".toList, "y".toList⟩ (by decide)
     (1, "a".toList, "x".toList) (by decide)⟩

/-! ### Match bounds at the public interface -/

/-- Inserting into the sorted list adds no new elements. -/
theorem mem_insertSorted (m x : Match) : ∀ l : List Match,
    x ∈ insertSorted m l → x = m ∨ x ∈ l := by
  intro l
  induction l with
  | nil => intro h; simp [insertSorted] at h; exact Or.inl h
  | cons y ys ih =>
      intro h
      rw [insertSorted] at h
      by_cases hle : jsLe y m
      · rw [if_pos hle] at h
        rcases List.mem_cons.mp h with h1 | h2
        · exact Or.inr (List.mem_cons.mpr (Or.inl h1))
        · rcases ih h2 with h3 | h4
          · exact Or.inl h3
          · exact Or.inr (List.mem_cons.mpr (Or.inr h4))
      · rw [if_neg hle] at h
        rcases List.mem_cons.mp h with h1 | h2
        · exact Or.inl h1
        · exact Or.inr h2

/-- The sort is a permutation-level operation: membership is preserved. -/
theorem mem_sortMatches (x : Match) : ∀ l : List Match,
    x ∈ sortMatches l → x ∈ l := by
  intro l
  induction l with
  | nil => intro h; simp [sortMatches] at h
  | cons y ys ih =>
      intro h
      rw [sortMatches] at h
      rcases mem_insertSorted y x (sortMatches ys) h with h1 | h2
      · exact h1 ▸ List.mem_cons_self y ys
      · exact List.mem_cons.mpr (Or.inr (ih h2))

/-- The sweep only filters: membership in its output implies membership in
its input. -/
theorem mem_sweep (x : Match) : ∀ (l : List Match) (lastEnd : Int),
    x ∈ sweep l lastEnd → x ∈ l := by
  intro l
  induction l with
  | nil => intro lastEnd h; simp [sweep] at h
  | cons m ms ih =>
      intro lastEnd h
      rw [sweep] at h
      by_cases hc : lastEnd ≤ (m.start : Int)
      · rw [if_pos hc] at h
        rcases List.mem_cons.mp h with h1 | h2
        · exact h1 ▸ List.mem_cons_self m ms
        · exact List.mem_cons.mpr (Or.inr (ih _ h2))
      · rw [if_neg hc] at h
        exact List.mem_cons.mpr (Or.inr (ih _ h))

/-- Every match returned by findAllMatches is one of the recorded
candidates. -/
theorem mem_findAllMatches (root : TrieNode) (text : List Char) (m : Match)
    (h : m ∈ findAllMatches root text) : m ∈ findCandidates root text := by
  unfold findAllMatches removeOverlappingMatches at h
  by_cases hc : findCandidates root text = []
  · rw [if_pos hc] at h; simp at h
  · rw [if_neg hc] at h
    exact mem_sortMatches m _ (mem_sweep m _ _ h)

/-- Counterexample to C10 as stated: the trie build loop does not reject the
malformed empty term.  Inserting the empty term marks the root node terminal,
and Trie.search then accepts the empty string, so search does operate on a
trie containing the malformed entry. -/
theorem insert_empty_term_not_rejected :
    search (insert createNode [] "x".toList) [] = true := by
  decide

/-- C10 amended: construction does not reject malformed entries, but the
match-time interface is protected anyway: every match returned by
findAllMatches satisfies zero less-or-equal start, start strictly below end,
and end at most the text length — a zero-length match is never produced,
even by a trie holding an empty term, because a match is recorded only after
consuming at least one character edge. -/
theorem findAllMatches_bounds (root : TrieNode) (text : List Char) (m : Match)
    (hm : m ∈ findAllMatches root text) :
    m.start < m.«end» ∧ m.«end» ≤ text.length := by
  have hc := mem_findAllMatches root text m hm
  have hL := candidate_getLast root text m hc
  have hzmem : (m.«end», m.word, m.replacement) ∈
      pathTerminals root (text.drop m.start) m.start := by
    rcases List.mem_getLast?_eq_getLast (x := (m.«end», m.word, m.replacement)) hL
      with ⟨hh, hzz⟩
    exact hzz ▸ List.getLast_mem hh
  have h1 := pathTerminals_lt _ _ _ _ hzmem
  have h2 := pathTerminals_le _ _ _ _ hzmem
  rw [List.length_drop] at h2
  simp only at h1 h2
  omega

/-- Witness for C10 amended on a trie that does contain an empty term next
to the term ab: the returned match of ab has positive length and stays in
bounds. -/
theorem findAllMatches_bounds_witness :
    (⟨0, 2, "ab".toList, "y".toList⟩ : Match) ∈
      findAllMatches (insert trieAB [] "z".toList) "ab".toList ∧
    (0 < 2 ∧ 2 ≤ ("ab".toList).length) :=
  ⟨by decide,
   findAllMatches_bounds (insert trieAB [] "z".toList) "ab".toList
     ⟨0, 2, "ab".toList, "y".toList⟩ (by decide)⟩

/-! ### Lifecycle tracker: snapshot diff invokes the callback once per id -/

/-- Membership after a set-style add. -/
theorem mem_setAdd (s : List (List Char)) (x y : List Char) :
    y ∈ setAdd s x ↔ y ∈ s ∨ y = x := by
  by_cases hx : x ∈ s
  · simp only [setAdd, if_pos hx]
    constructor
    · exact Or.inl
    · rintro (h | rfl)
      · exact h
      · exact hx
  · simp [setAdd, if_neg hx]

/-- A set-style add preserves freedom from duplicates. -/
theorem nodup_setAdd (s : List (List Char)) (x : List Char) (h : s.Nodup) :
    (setAdd s x).Nodup := by
  by_cases hx : x ∈ s
  · simpa [setAdd, if_pos hx] using h
  · simp [setAdd, if_neg hx, List.nodup_append, h, hx]

/-- Membership in the deleted-ids accumulator of findDeletedWordIds. -/
theorem findDeletedWordIds_go_mem (cur : List (List Char)) :
    ∀ (prev acc : List (List Char)) (y : List Char),
      y ∈ prev.foldl (fun d i => if i ∈ cur then d else setAdd d i) acc ↔
      y ∈ acc ∨ (y ∈ prev ∧ y ∉ cur) := by
  intro prev
  induction prev with
  | nil => intro acc y; simp
  | cons p ps ih =>
      intro acc y
      rw [List.foldl_cons, ih]
      by_cases hp : p ∈ cur
      · simp only [if_pos hp, List.mem_cons]
        constructor
        · rintro (h | h)
          · exact Or.inl h
          · exact Or.inr ⟨Or.inr h.1, h.2⟩
        · rintro (h | ⟨rfl | h, hc⟩)
          · exact Or.inl h
          · exact absurd hp hc
          · exact Or.inr ⟨h, hc⟩
      · simp only [if_neg hp, mem_setAdd, List.mem_cons]
        constructor
        · rintro ((h | rfl) | h)
          · exact Or.inl h
          · exact Or.inr ⟨Or.inl rfl, hp⟩
          · exact Or.inr ⟨Or.inr h.1, h.2⟩
        · rintro (h | ⟨rfl | h, hc⟩)
          · exact Or.inl (Or.inl h)
          · exact Or.inl (Or.inr rfl)
          · exact Or.inr ⟨h, hc⟩

/-- The deleted-ids accumulator stays duplicate-free. -/
theorem findDeletedWordIds_go_nodup (cur : List (List Char)) :
    ∀ (prev acc : List (List Char)), acc.Nodup →
      (prev.foldl (fun d i => if i ∈ cur then d else setAdd d i) acc).Nodup := by
  intro prev
  induction prev with
  | nil => intro acc h; exact h
  | cons p ps ih =>
      intro acc h
      rw [List.foldl_cons]
      by_cases hp : p ∈ cur
      · rw [if_pos hp]; exact ih acc h
      · rw [if_neg hp]; exact ih _ (nodup_setAdd acc p h)

/-- Membership in the collected word-id set: an id is collected exactly when
some text leaf's parent carries it as a truthy (nonempty) attribute. -/
theorem collectWordIds_go_mem :
    ∀ (parents : List (Option (List Char))) (acc : List (List Char)) (y : List Char),
      y ∈ parents.foldl
        (fun ids o =>
          match o with
          | some (c :: cs) => setAdd ids (c :: cs)
          | _ => ids) acc ↔
      y ∈ acc ∨ (some y ∈ parents ∧ y ≠ []) := by
  intro parents
  induction parents with
  | nil => intro acc y; simp
  | cons o os ih =>
      intro acc y
      rw [List.foldl_cons, ih]
      match o with
      | none => simp
      | some [] =>
          simp only [List.mem_cons]
          constructor
          · rintro (h | h)
            · exact Or.inl h
            · exact Or.inr ⟨Or.inr h.1, h.2⟩
          · rintro (h | ⟨hy | h, hne⟩)
            · exact Or.inl h
            · exact absurd (Option.some_inj.mp hy) hne
            · exact Or.inr ⟨h, hne⟩
      | some (c :: cs) =>
          simp only [mem_setAdd, List.mem_cons]
          constructor
          · rintro ((h | rfl) | h)
            · exact Or.inl h
            · exact Or.inr ⟨Or.inl rfl, by simp⟩
            · exact Or.inr ⟨Or.inr h.1, h.2⟩
          · rintro (h | ⟨hy | h, hne⟩)
            · exact Or.inl (Or.inl h)
            · exact Or.inl (Or.inr (Option.some_inj.mp hy))
            · exact Or.inr ⟨h, hne⟩

/-- In a duplicate-free list every member is counted exactly once. -/
theorem count_eq_one_of_nodup_mem {α : Type} [BEq α] [LawfulBEq α]
    {l : List α} {a : α} (hnd : l.Nodup) (ha : a ∈ l) : l.count a = 1 := by
  induction l with
  | nil => simp at ha
  | cons x xs ih =>
      rcases List.mem_cons.mp ha with rfl | hmem
      · rw [List.count_cons_self, List.count_eq_zero.mpr (List.nodup_cons.mp hnd).1]
      · have hx : a ≠ x := by
          rintro rfl
          exact (List.nodup_cons.mp hnd).1 hmem
        rw [List.count_cons_of_ne hx]
        exact ih (List.nodup_cons.mp hnd).2 hmem

/-- C7: for every pair of snapshots, the snapshot-diff path invokes the
deletion callback exactly once per id in the set difference of the previous
ids minus the current ids, and never for an id present in the current
snapshot; the id sets themselves hold exactly the truthy attribute values
read off the structural parent of each text leaf. -/
theorem handleEditorUpdate_deletion_calls (prev cur : List (Option (List Char)))
    (id : List Char) :
    (id ∈ collectWordIds prev ∧ id ∉ collectWordIds cur →
      (handleEditorUpdateCalls prev cur).count id = 1) ∧
    (id ∈ collectWordIds cur → (handleEditorUpdateCalls prev cur).count id = 0) ∧
    (id ∈ collectWordIds prev ↔ some id ∈ prev ∧ id ≠ []) := by
  refine ⟨?_, ?_, by simpa using collectWordIds_go_mem prev [] id⟩
  · rintro ⟨hp, hc⟩
    have hmem : id ∈ handleEditorUpdateCalls prev cur := by
      unfold handleEditorUpdateCalls findDeletedWordIds
      rw [findDeletedWordIds_go_mem]
      exact Or.inr ⟨hp, hc⟩
    have hnd : (handleEditorUpdateCalls prev cur).Nodup :=
      findDeletedWordIds_go_nodup _ _ _ List.nodup_nil
    exact count_eq_one_of_nodup_mem hnd hmem
  · intro hc
    rw [List.count_eq_zero]
    intro hmem
    unfold handleEditorUpdateCalls findDeletedWordIds at hmem
    rw [findDeletedWordIds_go_mem] at hmem
    rcases hmem with h | h
    · simp at h
    · exact h.2 hc

/-- Witness for C7 on concrete snapshots: id a disappears and is reported
once, id b survives and is never reported. -/
theorem handleEditorUpdate_deletion_calls_witness :
    (handleEditorUpdateCalls [some "a".toList, some "b".toList]
        [some "b".toList]).count "a".toList = 1 ∧
    (handleEditorUpdateCalls [some "a".toList, some "b".toList]
        [some "b".toList]).count "b".toList = 0 :=
  ⟨(handleEditorUpdate_deletion_calls [some "a".toList, some "b".toList]
      [some "b".toList] "a".toList).1 ⟨by decide, by decide⟩,
   (handleEditorUpdate_deletion_calls [some "a".toList, some "b".toList]
      [some "b".toList] "b".toList).2.1 (by decide)⟩

/-! ### Block identifier assigner: the pass regenerates every id -/

/-- C8 at the failing input: a single element block carrying a valid,
non-duplicated data-unique value a is not left unchanged; the pass assigns a
freshly generated id instead, because collectExistingUniqueValues pre-seeds
the seen set with the block's own value and the keep branch therefore never
fires. -/
theorem processAllRootChildren_regenerates_valid_id :
    processAllRootChildren (fun _ => "b".toList) [⟨true, some (some "a".toList)⟩] =
      [⟨true, some (some "b".toList)⟩] ∧
    blockVals (processAllRootChildren (fun _ => "b".toList)
      [⟨true, some (some "a".toList)⟩]) ≠ ["a".toList] :=
  ⟨by decide, by decide⟩

/-- Counterexample to C9 as stated: with two blocks both carrying the value
a, the first-seen instance does not keep its id either; both blocks receive
freshly generated ids, so duplicates are resolved by regenerating for every
instance, not only for all but the first-seen one. -/
theorem identifier_uniqueness_counterexample :
    blockVals (processAllRootChildren (fun n => List.replicate (n + 1) 'x')
        [⟨true, some (some "a".toList)⟩, ⟨true, some (some "a".toList)⟩]) =
      ["x".toList, "xx".toList] ∧
    "a".toList ∉ blockVals (processAllRootChildren (fun n => List.replicate (n + 1) 'x')
        [⟨true, some (some "a".toList)⟩, ⟨true, some (some "a".toList)⟩]) :=
  ⟨by decide, by decide⟩

/-- Values already collected never disappear while folding over further
blocks. -/
theorem collectExisting_go_mono :
    ∀ (bs : List Block) (acc : List (List Char)) (y : List Char), y ∈ acc →
      y ∈ bs.foldl
        (fun s b =>
          match truthyVal (getUniqueAttributeValue b) with
          | some v => setAdd s v
          | none => s) acc := by
  intro bs
  induction bs with
  | nil => intro acc y h; exact h
  | cons x xs ih =>
      intro acc y h
      rw [List.foldl_cons]
      cases htv : truthyVal (getUniqueAttributeValue x) with
      | none => exact ih acc y h
      | some v => exact ih _ y ((mem_setAdd _ _ _).mpr (Or.inl h))

/-- Every truthy data-unique value of a listed block is pre-collected. -/
theorem collectExisting_mem :
    ∀ (bs : List Block) (acc : List (List Char)) (b : Block), b ∈ bs →
      ∀ v, truthyVal (getUniqueAttributeValue b) = some v →
      v ∈ bs.foldl
        (fun s b =>
          match truthyVal (getUniqueAttributeValue b) with
          | some v => setAdd s v
          | none => s) acc := by
  intro bs
  induction bs with
  | nil => intro acc b h; simp at h
  | cons x xs ih =>
      intro acc b hb v hv
      rw [List.foldl_cons]
      rcases List.mem_cons.mp hb with rfl | hmem
      · rw [hv]
        exact collectExisting_go_mono xs _ v ((mem_setAdd _ _ _).mpr (Or.inr rfl))
      · cases htv : truthyVal (getUniqueAttributeValue x) with
        | none => exact ih acc b hmem v hv
        | some w => exact ih _ b hmem v hv

/-- Main invariant of the assign pass: provided every remaining block's
truthy value is already in the seen set (which the pre-collection
guarantees), the values accumulated so far are generator outputs below the
counter and duplicate-free, and both facts are preserved to the end of the
fold. -/
theorem passStep_go (gen : Nat → List Char)
    (hinj : ∀ i j, gen i = gen j → i = j) :
    ∀ (bs : List Block) (acc : List Block) (seen : List (List Char)) (ctr : Nat),
      (∀ b ∈ bs, ∀ v, truthyVal (getUniqueAttributeValue b) = some v → v ∈ seen) →
      (blockVals acc).Nodup →
      (∀ v ∈ blockVals acc, ∃ k, k < ctr ∧ v = gen k) →
      (blockVals (bs.foldl (passStep gen) (acc, seen, ctr)).1).Nodup ∧
      (∀ v ∈ blockVals (bs.foldl (passStep gen) (acc, seen, ctr)).1,
        ∃ k, k < (bs.foldl (passStep gen) (acc, seen, ctr)).2.2 ∧ v = gen k) := by
  intro bs
  induction bs with
  | nil => intro acc seen ctr _ hnd hbd; exact ⟨hnd, hbd⟩
  | cons b bs ih =>
      intro acc seen ctr hseen hnd hbd
      have hgen_notmem : gen ctr ∉ blockVals acc := by
        intro hmem
        obtain ⟨k, hk, hv⟩ := hbd _ hmem
        exact absurd (hinj k ctr hv.symm) (Nat.ne_of_lt hk)
      have hnd' : (blockVals (acc ++ [⟨true, some (some (gen ctr))⟩])).Nodup := by
        unfold blockVals
        rw [List.filterMap_append]
        have : List.filterMap getUniqueAttributeValue [(⟨true, some (some (gen ctr))⟩ : Block)] =
            [gen ctr] := by rfl
        rw [this, List.nodup_append]
        exact ⟨hnd, List.nodup_singleton _, by
          intro y hy hy'
          rw [List.mem_singleton] at hy'
          exact hgen_notmem (hy' ▸ hy)⟩
      have hbd' : ∀ v ∈ blockVals (acc ++ [⟨true, some (some (gen ctr))⟩]),
          ∃ k, k < ctr + 1 ∧ v = gen k := by
        intro v hv
        unfold blockVals at hv
        rw [List.filterMap_append] at hv
        rcases List.mem_append.mp hv with h1 | h2
        · obtain ⟨k, hk, hvk⟩ := hbd v h1
          exact ⟨k, Nat.lt_succ_of_lt hk, hvk⟩
        · have : v = gen ctr := by
            simp [getUniqueAttributeValue] at h2
            exact h2
          exact ⟨ctr, Nat.lt_succ_self ctr, this⟩
      have hseen' : ∀ x ∈ bs, ∀ v, truthyVal (getUniqueAttributeValue x) = some v →
          v ∈ setAdd seen (gen ctr) := fun x hx v hv =>
        (mem_setAdd _ _ _).mpr (Or.inl (hseen x (List.mem_cons.mpr (Or.inr hx)) v hv))
      have hseen_bs : ∀ x ∈ bs, ∀ v, truthyVal (getUniqueAttributeValue x) = some v →
          v ∈ seen := fun x hx v hv => hseen x (List.mem_cons.mpr (Or.inr hx)) v hv
      obtain ⟨iE, dm⟩ := b
      cases iE with
      | false =>
          have hstep : passStep gen (acc, seen, ctr) ⟨false, dm⟩ =
              (acc ++ [⟨false, dm⟩], seen, ctr) := by
            simp [passStep, assignUniqueAttributeIfNeeded]
          rw [List.foldl_cons, hstep]
          have hvals : blockVals (acc ++ [(⟨false, dm⟩ : Block)]) = blockVals acc := by
            unfold blockVals
            rw [List.filterMap_append]
            simp [getUniqueAttributeValue]
          refine ih _ _ _ hseen_bs ?_ ?_
          · rw [hvals]; exact hnd
          · rw [hvals]; exact hbd
      | true =>
          cases dm with
          | none =>
              have hstep : passStep gen (acc, seen, ctr) ⟨true, none⟩ =
                  (acc ++ [⟨true, none⟩], seen, ctr + 1) := by
                simp [passStep, assignUniqueAttributeIfNeeded, getUniqueAttributeValue,
                  truthyVal, setUniqueAttributeValue]
              rw [List.foldl_cons, hstep]
              have hvals : blockVals (acc ++ [(⟨true, none⟩ : Block)]) = blockVals acc := by
                unfold blockVals
                rw [List.filterMap_append]
                simp [getUniqueAttributeValue]
              refine ih _ _ _ hseen_bs ?_ ?_
              · rw [hvals]; exact hnd
              · rw [hvals]
                intro v hv
                obtain ⟨k, hk, hvk⟩ := hbd v hv
                exact ⟨k, Nat.lt_succ_of_lt hk, hvk⟩
          | some attr =>
              cases attr with
              | none =>
                  have hstep : passStep gen (acc, seen, ctr) ⟨true, some none⟩ =
                      (acc ++ [⟨true, some (some (gen ctr))⟩],
                        setAdd seen (gen ctr), ctr + 1) := by
                    simp [passStep, assignUniqueAttributeIfNeeded, getUniqueAttributeValue,
                      truthyVal, setUniqueAttributeValue]
                  rw [List.foldl_cons, hstep]
                  exact ih _ _ _ hseen' hnd' hbd'
              | some v =>
                  cases v with
                  | nil =>
                      have hstep : passStep gen (acc, seen, ctr) ⟨true, some (some [])⟩ =
                          (acc ++ [⟨true, some (some (gen ctr))⟩],
                            setAdd seen (gen ctr), ctr + 1) := by
                        simp [passStep, assignUniqueAttributeIfNeeded, getUniqueAttributeValue,
                          truthyVal, setUniqueAttributeValue]
                      rw [List.foldl_cons, hstep]
                      exact ih _ _ _ hseen' hnd' hbd'
                  | cons ch cs =>
                      have hv : truthyVal (getUniqueAttributeValue ⟨true, some (some (ch :: cs))⟩) =
                          some (ch :: cs) := by
                        simp [getUniqueAttributeValue, truthyVal]
                      have hin : (ch :: cs) ∈ seen :=
                        hseen _ (List.mem_cons.mpr (Or.inl rfl)) _ hv
                      have hstep : passStep gen (acc, seen, ctr) ⟨true, some (some (ch :: cs))⟩ =
                          (acc ++ [⟨true, some (some (gen ctr))⟩],
                            setAdd seen (gen ctr), ctr + 1) := by
                        simp [passStep, assignUniqueAttributeIfNeeded, getUniqueAttributeValue,
                          truthyVal, setUniqueAttributeValue, hin]
                      rw [List.foldl_cons, hstep]
                      exact ih _ _ _ hseen' hnd' hbd'

/-- C9 amended: after any identifier assigner pass over N top-level blocks,
all assigned data-unique values are pairwise distinct; every value present
after the pass is a freshly generated id, since the pass regenerates for
every element block with a DOM handle (including the first-seen holder of a
duplicated value), never keeping a pre-existing value. -/
theorem identifier_uniqueness (gen : Nat → List Char) (blocks : List Block)
    (hinj : ∀ i j, gen i = gen j → i = j) :
    (blockVals (processAllRootChildren gen blocks)).Nodup ∧
    ∀ v ∈ blockVals (processAllRootChildren gen blocks), ∃ k, v = gen k := by
  have h := passStep_go gen hinj blocks [] (collectExistingUniqueValues blocks) 0
    (fun b hb v hv => collectExisting_mem blocks [] b hb v hv)
    (by simp [blockVals]) (by simp [blockVals])
  refine ⟨h.1, fun v hv => ?_⟩
  obtain ⟨k, _, hvk⟩ := h.2 v hv
  exact ⟨k, hvk⟩

/-- Witness for C9 amended with an injective generator supply and two blocks
holding duplicate values: the resulting values are distinct and freshly
generated. -/
theorem identifier_uniqueness_witness :
    (blockVals (processAllRootChildren (fun n => List.replicate (n + 1) 'x')
        [⟨true, some (some "a".toList)⟩, ⟨true, some (some "a".toList)⟩])).Nodup :=
  (identifier_uniqueness (fun n => List.replicate (n + 1) 'x')
    [⟨true, some (some "a".toList)⟩, ⟨true, some (some "a".toList)⟩]
    (fun i j h => by
      have hl := congrArg List.length h
      simp at hl
      omega)).1

end LexicalTest
